import Mathlib

/-!
# A verification development for MemQueue

Shallow embedding of `memqueue/__init__.py`: a message queue layered on a
key-value cache (memcache).  Strings are modelled as `List Char`, cached
values as `PyVal`, the cache as a total map from keys to `PyVal` where
`PyVal.none` stands for "absent" (Python code observes an absent key as
`None`, so the two are observationally identical to the embedded core).
Wall-clock reads (`time.time()`, `time.strftime("%Y%m%d%H%M")`) are passed
in as explicit parameters `now` (seconds, an integer in the model) and
`ts` (the decimal-encoded current minute).
-/

/-- Python strings, modelled as lists of characters. -/
abbrev Str := List Char

/-- Convert a Lean string literal to the `Str` model. -/
def chars (s : String) : Str := s.data

/-- The values the embedded core stores in or reads from the cache:
Python `None` (also standing for an absent key), strings, and numbers
(timestamps; `time.time()` is modelled as an integer). -/
inductive PyVal where
  | none
  | pstr (s : Str)
  | num (n : Int)
deriving DecidableEq, Repr

/-- Errors the embedded core can raise. -/
inductive Err where
  | indexError
  | attributeError
deriving DecidableEq, Repr

/-- Modelled from the spec: the external key-value cache (§6) is a map from
opaque string keys to values; `get` "returns value or absent".  `PyVal.none`
represents absence. -/
def CState := Str → PyVal

/-- Point update of the cache. -/
def upd (st : CState) (k : Str) (v : PyVal) : CState :=
  fun k2 => if k2 = k then v else st k2

/-- The empty cache: every key absent. -/
def emptyC : CState := fun _ => .none

/-- Modelled from the spec: `get(key)` returns value or absent, no side
effects (§6). -/
def mcGet (st : CState) (k : Str) : PyVal := st k

/-- Modelled from the spec: `set(key, value)` is an unconditional write (§6). -/
def mcSet (st : CState) (k : Str) (v : PyVal) : CState := upd st k v

/-- Modelled from the spec: `add(key, value)` is an atomic create-if-absent
returning false if the key already exists (§6). -/
def mcAdd (st : CState) (k : Str) (v : PyVal) : Bool × CState :=
  match st k with
  | .none => (true, upd st k v)
  | _ => (false, st)

/-- Modelled from the spec: `append(key, suffix)` is an atomic
append-if-present returning false if the key is absent (§6).  A non-string
present value is outside the contract; the model makes the append fail
there (no state reachable through the embedded operations stores a
non-string under a bucket key). -/
def mcAppend (st : CState) (k : Str) (v : Str) : Bool × CState :=
  match st k with
  | .pstr s => (true, upd st k (.pstr (s ++ v)))
  | _ => (false, st)

/-- Modelled from the spec: `delete(key)` removes the key and returns whether
a key was removed (§6). -/
def mcDelete (st : CState) (k : Str) : Bool × CState :=
  match st k with
  | .none => (false, st)
  | _ => (true, upd st k .none)

/-- `mc.get` as called by the core, whose `keyID` argument may be the Python
value `None` (e.g. in `last` on a never-written queue).  Modelled from the
spec: a key that is not a string matches no stored key, so the lookup is
absent. -/
def pyMcGet (st : CState) (keyID : PyVal) : PyVal :=
  match keyID with
  | .pstr k => st k
  | _ => .none

/-- `mc.delete` as called by the core on a possibly-`None` `keyID`.
Modelled from the spec: deleting a non-string key removes nothing. -/
def pyMcDelete (st : CState) (keyID : PyVal) : Bool × CState :=
  match keyID with
  | .pstr k => mcDelete st k
  | _ => (false, st)

/-- Python truthiness of the cached values the core branches on. -/
def pyTruthy : PyVal → Bool
  | .none => false
  | .pstr s => s ≠ []
  | .num n => n ≠ 0

/-- Python 2 comparison `v < x` for a cached value against a number, as in
`lastclienttime < (time.time() - self._clientlag)`: `None` sorts below every
number, numbers compare numerically, and strings sort above every number
(CPython 2 orders mixed types by type name, so a string is never `<` a
number). -/
def pyLtNum (v : PyVal) (x : Int) : Bool :=
  match v with
  | .none => true
  | .num t => t < x
  | .pstr _ => false

/-- Python `str.split(sep)` for a one-character separator: no collapsing of
adjacent separators, and the split of the empty string is `[""]`. -/
def pySplit (sep : Char) : Str → List Str
  | [] => [[]]
  | c :: cs =>
    match pySplit sep cs with
    | [] => [[]]
    | t :: ts => if c = sep then [] :: t :: ts else (c :: t) :: ts

/-- Python `list.index` restricted to the first match, as `Option`:
`some i` for the first index holding `x`, else `none` (Python raises
`ValueError`, which the caller catches). -/
def pyIndex (x : Str) : List Str → Option Nat
  | [] => Option.none
  | y :: ys => if y = x then some 0 else (pyIndex x ys).map (fun i => i + 1)

/-- One decimal digit character. -/
def digitChar : Nat → Char
  | 0 => '0' | 1 => '1' | 2 => '2' | 3 => '3' | 4 => '4'
  | 5 => '5' | 6 => '6' | 7 => '7' | 8 => '8' | _ => '9'

/-- Decimal rendering of a natural number, by fuel (structural recursion so
that the kernel can evaluate it on concrete inputs). -/
def natDigsAux : Nat → Nat → Str
  | 0, _ => []
  | fuel + 1, n =>
    if n < 10 then [digitChar n] else natDigsAux fuel (n / 10) ++ [digitChar (n % 10)]

/-- Decimal rendering of a natural number, e.g. `natDigs 120 = "120"`. -/
def natDigs (n : Nat) : Str := natDigsAux (n + 1) n

/-- Decimal rendering of an integer (Python `"%s" % i`). -/
def intChars (i : Int) : Str :=
  if i < 0 then '-' :: natDigs (-i).toNat else natDigs i.toNat

/-- Key `"%s_LASTMSG" % mqname`: the queue-global LastMessage pointer. -/
def lastmsgKey (q : Str) : Str := q ++ ['_', 'L', 'A', 'S', 'T', 'M', 'S', 'G']

/-- Key `"%s_LASTMSG_%s" % (mqname, clientID)`: the client cursor's message key. -/
def cursorMsgKey (q c : Str) : Str :=
  q ++ ['_', 'L', 'A', 'S', 'T', 'M', 'S', 'G', '_'] ++ c

/-- Key `"%s_LASTTIME_%s" % (mqname, clientID)`: the client cursor's timestamp. -/
def cursorTimeKey (q c : Str) : Str :=
  q ++ ['_', 'L', 'A', 'S', 'T', 'T', 'I', 'M', 'E', '_'] ++ c

/-- Key `"%s_%s_%s" % (mqname, "LIST", i)`: the minute bucket for integer `i`. -/
def bucketKey (q : Str) (i : Int) : Str :=
  q ++ ['_', 'L', 'I', 'S', 'T', '_'] ++ intChars i

/-- Message key `"%s_%s_%s" % (mqname, "%s_%s" % (clientID, time.time()), uuid)`. -/
def msgKey (q c : Str) (now : Int) (uid : Str) : Str :=
  q ++ ['_'] ++ c ++ ['_'] ++ intChars now ++ ['_'] ++ uid

/-- The constructed `MemQueue` object's state: the cache endpoint list the
`memcache.Client` was built with, and the two configuration fields. -/
structure MemQueue where
  servers : List Str
  autodelete : Bool
  clientlag : Int
deriving DecidableEq, Repr

namespace MemQueue

/-- `MemQueue.__init__(primaryservers, backupservers, autodelete, clientlag)`:
the source builds `memcache.Client(['127.0.0.1:11211'])`, ignoring both
server arguments. -/
def init (primaryservers backupservers : List Str) (autodelete : Bool)
    (clientlag : Int) : MemQueue :=
  { servers := [chars "127.0.0.1:11211"], autodelete := autodelete,
    clientlag := clientlag }

/-- `MemQueue._get_timecache_keys(mqname, tframe)`: bucket keys for the
integers `range(int(ts) - int(tframe), int(ts) + 1)` where `ts` is the
decimal-encoded current minute `time.strftime("%Y%m%d%H%M")`. -/
def _get_timecache_keys (q : Str) (tframe ts : Int) : List Str :=
  (List.range (tframe + 1).toNat).map (fun j => bucketKey q (ts - tframe + j))

/-- `MemQueue._update_cache_view(mqname, keyID)`: append `"%s," % keyID` to
the current-minute bucket, falling back to `add` and then one more `append`,
then unconditionally set the queue's existence marker (key = queue name) to
`time.time()`. -/
def _update_cache_view (st : CState) (q keyID : Str) (now ts : Int) : CState :=
  let keynow := (_get_timecache_keys q 1 ts).getLastD []
  let av := keyID ++ [',']
  let r1 := mcAppend st keynow av
  let st2 :=
    if r1.1 then r1.2
    else
      let r2 := mcAdd r1.2 keynow (.pstr av)
      if r2.1 then r2.2 else (mcAppend r2.2 keynow av).2
  mcSet st2 q (.num now)

/-- `MemQueue._set_last_msg(mqname, keyID, clientID)`. -/
def _set_last_msg (st : CState) (q : Str) (keyID : Str) : CState :=
  mcSet st (lastmsgKey q) (.pstr keyID)

/-- `MemQueue._get_last_msg(mqname, clientID)`. -/
def _get_last_msg (st : CState) (q : Str) : PyVal :=
  mcGet st (lastmsgKey q)

/-- `MemQueue._set_last_client(mqname, clientID, keyID)`: unconditionally
overwrite both cursor entries; `keyID` is whatever value was delivered,
possibly the Python value `None`. -/
def _set_last_client (st : CState) (q c : Str) (keyID : PyVal) (now : Int) : CState :=
  mcSet (mcSet st (cursorMsgKey q c) keyID) (cursorTimeKey q c) (.num now)

/-- `MemQueue._get_last_client(mqname, clientID)`: the pair
`(lastmsg, lasttime)`. -/
def _get_last_client (st : CState) (q c : Str) : PyVal × PyVal :=
  (mcGet st (cursorMsgKey q c), mcGet st (cursorTimeKey q c))

/-- `MemQueue.delete(mqname, keyID, clientID)`: plain cache delete of
`keyID` (which, on the internal call path from `get`, may be `None`). -/
def delete (st : CState) (keyID : PyVal) : Bool × CState :=
  pyMcDelete st keyID

/-- `MemQueue.get(mqname, keyID, clientID)`: read the payload, delete it if
`autodelete` is set, then unconditionally update the client cursor to
`(keyID, now)`.  Returns the payload (or `None`). -/
def get (mq : MemQueue) (st : CState) (q : Str) (keyID : PyVal) (c : Str)
    (now : Int) : PyVal × CState :=
  let data := pyMcGet st keyID
  let st1 := if mq.autodelete then (delete st keyID).2 else st
  let st2 := _set_last_client st1 q c keyID now
  (data, st2)

/-- `MemQueue.last(mqname, clientID)`: resolve the LastMessage pointer and
delegate to `get`. -/
def last (mq : MemQueue) (st : CState) (q c : Str) (now : Int) : PyVal × CState :=
  get mq st q (_get_last_msg st q) c now

/-- `MemQueue.put(mqname, data, clientID)`: store the payload under a fresh
message key, update the LastMessage pointer, register the key in the
current-minute bucket and touch the existence marker.  Returns the key. -/
def put (mq : MemQueue) (st : CState) (q : Str) (data : PyVal) (c : Str)
    (now : Int) (uid : Str) (ts : Int) : Str × CState :=
  let keyID := msgKey q c now uid
  let st1 := mcSet st keyID data
  let st2 := _set_last_msg st1 q keyID
  let st3 := _update_cache_view st2 q keyID now ts
  (keyID, st3)

/-- The per-bucket step of `listmsgs`: `msg_list = mc.get(k)`, and when
`msg_list` is truthy, `msg_list.split(",")`.  A truthy number has no
`.split` attribute, so Python would raise `AttributeError` there. -/
def bucketTokens (st : CState) (k : Str) : Except Err (List Str) :=
  match mcGet st k with
  | .none => .ok []
  | .pstr s => if s = [] then .ok [] else .ok (pySplit ',' s)
  | .num n => if n = 0 then .ok [] else .error .attributeError

/-- Accumulate the split bucket contents over the window keys, in key order. -/
def collectMsgs (st : CState) : List Str → Except Err (List Str)
  | [] => .ok []
  | k :: ks =>
    match bucketTokens st k with
    | .error e => .error e
    | .ok ts1 =>
      match collectMsgs st ks with
      | .error e => .error e
      | .ok rest => .ok (ts1 ++ rest)

/-- `MemQueue.listmsgs(mqname, tframe, clientID)`: merge the window's bucket
contents, then `msgs.pop()` — which removes the final element of the merged
list (raising `IndexError` when the merged list is empty). -/
def listmsgs (st : CState) (q : Str) (tframe ts : Int) : Except Err (List Str) :=
  match collectMsgs st (_get_timecache_keys q tframe ts) with
  | .error e => .error e
  | .ok msgs => if msgs = [] then .error .indexError else .ok msgs.dropLast

/-- `MemQueue.purge_queue(mqname, tframe, clientID)`: the source calls
`self._get_timecache_key(mqname, tframe)` — an attribute that does not
exist (the defined method is `_get_timecache_keys`) — so every call raises
`AttributeError` before performing any delete. -/
def purge_queue (st : CState) (q : Str) (tframe : Int) (c : Str) :
    Except Err CState :=
  .error .attributeError

/-- `MemQueue.check_queue(mqname)`: 0 when the existence marker is absent,
else the marker's value. -/
def check_queue (st : CState) (q : Str) : PyVal :=
  match st q with
  | .none => .num 0
  | v => v

/-- `MemQueue.nextmsg(mqname, clientID)`: caught-up check, lag-based
fast-forward, then windowed scan; `msgs.index` raising `ValueError` is
caught (index defaults to 0), but `msgs.pop(index)` on an out-of-range
index raises `IndexError`, which nothing catches. -/
def nextmsg (mq : MemQueue) (st : CState) (q c : Str) (now ts : Int) :
    Except Err (PyVal × CState) :=
  let lastclientmsg := (_get_last_client st q c).1
  let lastclienttime := (_get_last_client st q c).2
  let lastmsg := _get_last_msg st q
  if lastclientmsg = lastmsg then .ok (.none, st)
  else if pyTruthy lastclienttime && pyLtNum lastclienttime (now - mq.clientlag) then
    .ok (last mq st q c now)
  else
    match listmsgs st q mq.clientlag ts with
    | .error e => .error e
    | .ok msgs =>
      let idx : Nat :=
        match lastclientmsg with
        | .pstr s =>
          match pyIndex s msgs with
          | some i => i + 1
          | Option.none => 0
        | _ => 0
      if h : idx < msgs.length then
        .ok (get mq st q (.pstr (msgs.get ⟨idx, h⟩)) c now)
      else .error .indexError

end MemQueue

/-- First element of a token list (`[]` when empty). -/
def headTok : List Str → Str
  | [] => []
  | t :: _ => t

/-- All but the first element of a token list. -/
def tailToks : List Str → List Str
  | [] => []
  | _ :: ts => ts

/-- Last element of a token list (`[]` when empty). -/
def lastTok : List Str → Str
  | [] => []
  | [t] => t
  | _ :: t :: ts => lastTok (t :: ts)

/-- All but the last element of a token list. -/
def initToks : List Str → List Str
  | [] => []
  | [_] => []
  | t :: u :: ts => t :: initToks (u :: ts)

/-- A token stored in a bucket of queue `q` is either the empty token or a
registered message key, which is strictly longer than the queue name. -/
def tokOk (q t : Str) : Prop := t = [] ∨ q.length < t.length

/-- The LastMessage pointer holds nothing or a message key (longer than the
queue name). -/
def ptrOk (q : Str) (v : PyVal) : Prop :=
  v = .none ∨ ∃ s, v = .pstr s ∧ q.length < s.length

/-- A bucket holds nothing or a string all of whose comma-tokens are `tokOk`. -/
def bucketOk (q : Str) (v : PyVal) : Prop :=
  v = .none ∨ ∃ s, v = .pstr s ∧ ∀ t ∈ pySplit ',' s, tokOk q t

/-- The existence marker holds nothing or a positive write timestamp. -/
def markerOk (v : PyVal) : Prop := v = .none ∨ ∃ n : Int, v = .num n ∧ 0 < n

/-- State invariant for queue `q`: the LastMessage pointer, every minute
bucket, and the existence marker are well formed. -/
def QInv (q : Str) (st : CState) : Prop :=
  ptrOk q (st (lastmsgKey q)) ∧
    (∀ i : Int, bucketOk q (st (bucketKey q i))) ∧ markerOk (st q)

/-- One public-API call on queue `q`, with its wall-clock inputs made
explicit (`now` = `time.time()`, `ts` = the decimal-encoded current minute). -/
inductive Op where
  | oput (data : PyVal) (c : Str) (now : Int) (uid : Str) (ts : Int)
  | oget (k c : Str) (now : Int)
  | olast (c : Str) (now : Int)
  | onext (c : Str) (now ts : Int)
  | olist (tframe ts : Int)
  | odel (k : Str)
  | opurge (tframe : Int) (c : Str)
  | ocheck
deriving DecidableEq, Repr

/-- Whether the call is a `put`. -/
def Op.isPut : Op → Bool
  | .oput _ _ _ _ _ => true
  | _ => false

/-- The cache-state effect of one call.  `listmsgs` and `check_queue`
perform no cache writes; a call that raises leaves the cache as it was
(every modelled operation raises, if at all, before its first write). -/
def applyOp (mq : MemQueue) (q : Str) (st : CState) : Op → CState
  | .oput d c now uid ts => (MemQueue.put mq st q d c now uid ts).2
  | .oget k c now => (MemQueue.get mq st q (.pstr k) c now).2
  | .olast c now => (MemQueue.last mq st q c now).2
  | .onext c now ts =>
    match MemQueue.nextmsg mq st q c now ts with
    | .ok r => r.2
    | .error _ => st
  | .olist _ _ => st
  | .odel k => (MemQueue.delete st (.pstr k)).2
  | .opurge tframe c =>
    match MemQueue.purge_queue st q tframe c with
    | .ok st2 => st2
    | .error _ => st
  | .ocheck => st

/-- Run a sequence of calls from a starting cache state. -/
def runOps (mq : MemQueue) (q : Str) (st : CState) : List Op → CState
  | [] => st
  | op :: rest => runOps mq q (applyOp mq q st op) rest

/-- Documented usage of the API on queue `q`: client and message
identifiers contain no comma (the bucket-list delimiter), write timestamps
are positive, and the keys handed to `get`/`delete` are keys obtained from
`put` or `listmsgs`, which are never the bare queue name. -/
def wfOp (q : Str) : Op → Prop
  | .oput _ c now uid _ => (',' ∉ c) ∧ (',' ∉ uid) ∧ 0 < now
  | .oget k _ _ => k ≠ q
  | .odel k => k ≠ q
  | _ => True

/-! ### Concrete fixtures used by counterexamples and witnesses -/

/-- Example queue name. -/
def exQ : Str := ['q']

/-- Example client identifier. -/
def exC : Str := ['c']

/-- Example message key, registered in the minute-999 bucket. -/
def exK1 : Str := ['k', '1']

/-- Example message key, registered in the minute-1000 bucket. -/
def exK2 : Str := ['k', '2']

/-- Example message key whose bucket entry is gone (e.g. evicted). -/
def exK3 : Str := ['k', '3']

/-- An example object: `MemQueue([], [], autodelete=False, clientlag=3)`. -/
def exMQ : MemQueue := MemQueue.init [] [] false 3

/-- Cache after one write per minute in two successive minutes: bucket 999
holds `"k1,"` and bucket 1000 holds `"k2,"`. -/
def exTwoBuckets : CState :=
  upd (upd emptyC (bucketKey exQ 999) (.pstr (exK1 ++ [','])))
    (bucketKey exQ 1000) (.pstr (exK2 ++ [',']))

/-- `exTwoBuckets` plus a client whose cursor sits on `exK2` (delivered at
time 5) while the LastMessage pointer names `exK3`, whose bucket has aged
out of the cache: the client is at the newest position inside the window
but not equal to the global pointer. -/
def exStuck : CState :=
  upd (upd (upd exTwoBuckets (cursorMsgKey exQ exC) (.pstr exK2))
    (cursorTimeKey exQ exC) (.num 5)) (lastmsgKey exQ) (.pstr exK3)

/-- A lagging client: the LastMessage pointer names `exK2` (payload "m2"),
the client's cursor sits on `exK1`, delivered at time 1. -/
def exLag : CState :=
  upd (upd (upd (upd emptyC (lastmsgKey exQ) (.pstr exK2))
    (cursorMsgKey exQ exC) (.pstr exK1))
    (cursorTimeKey exQ exC) (.num 1)) exK2 (.pstr (chars "m2"))

/-- A single `put` call, as an `Op`. -/
def exPutOp : Op := .oput (.pstr (chars "m")) exC 7 ['u'] 1000

/-! ### Basic lemmas about the cache model and the key language -/

theorem upd_same (st : CState) (k : Str) (v : PyVal) : upd st k v k = v := by
  simp [upd]

theorem upd_ne (st : CState) (k : Str) (v : PyVal) {k2 : Str} (h : k2 ≠ k) :
    upd st k v k2 = st k2 := by
  simp [upd, h]

theorem app_inj_left {q a b : Str} (h : q ++ a = q ++ b) : a = b := by
  induction q with
  | nil => simpa using h
  | cons x xs ih =>
    simp only [List.cons_append, List.cons.injEq] at h
    exact ih h.2

theorem ne_of_len_ne {a b : Str} (h : a.length ≠ b.length) : a ≠ b :=
  fun hab => h (congrArg List.length hab)

theorem digitChar_ne_uscore (d : Nat) : digitChar d ≠ '_' := by
  unfold digitChar
  split <;> decide

theorem digitChar_ne_comma (d : Nat) : digitChar d ≠ ',' := by
  unfold digitChar
  split <;> decide

theorem natDigsAux_mem {fuel n : Nat} {c : Char} (h : c ∈ natDigsAux fuel n) :
    ∃ d, c = digitChar d := by
  induction fuel generalizing n with
  | zero => simp [natDigsAux] at h
  | succ f ih =>
    simp only [natDigsAux] at h
    split at h
    · simp only [List.mem_singleton] at h
      exact ⟨n, h⟩
    · rcases List.mem_append.1 h with h1 | h1
      · exact ih h1
      · simp only [List.mem_singleton] at h1
        exact ⟨n % 10, h1⟩

theorem natDigs_no_uscore (n : Nat) : '_' ∉ natDigs n := by
  intro h
  simp only [natDigs] at h
  rcases natDigsAux_mem h with ⟨d, hd⟩
  exact digitChar_ne_uscore d hd.symm

theorem natDigs_no_comma (n : Nat) : ',' ∉ natDigs n := by
  intro h
  simp only [natDigs] at h
  rcases natDigsAux_mem h with ⟨d, hd⟩
  exact digitChar_ne_comma d hd.symm

theorem natDigs_ne_nil (n : Nat) : natDigs n ≠ [] := by
  simp only [natDigs, natDigsAux]
  split <;> simp

theorem intChars_ne_nil (i : Int) : intChars i ≠ [] := by
  unfold intChars
  split
  · simp
  · exact natDigs_ne_nil _

theorem intChars_no_uscore (i : Int) : '_' ∉ intChars i := by
  unfold intChars
  split
  · intro h
    rcases List.mem_cons.1 h with h1 | h1
    · exact absurd h1 (by decide)
    · exact natDigs_no_uscore _ h1
  · exact natDigs_no_uscore _

theorem intChars_no_comma (i : Int) : ',' ∉ intChars i := by
  unfold intChars
  split
  · intro h
    rcases List.mem_cons.1 h with h1 | h1
    · exact absurd h1 (by decide)
    · exact natDigs_no_comma _ h1
  · exact natDigs_no_comma _

theorem len_intChars_pos (i : Int) : 0 < (intChars i).length :=
  List.length_pos.2 (intChars_ne_nil i)

theorem lastmsgKey_ne_marker (q : Str) : lastmsgKey q ≠ q :=
  ne_of_len_ne (by simp [lastmsgKey])

theorem cursorMsgKey_ne_marker (q c : Str) : cursorMsgKey q c ≠ q :=
  ne_of_len_ne (by simp [cursorMsgKey])

theorem cursorTimeKey_ne_marker (q c : Str) : cursorTimeKey q c ≠ q :=
  ne_of_len_ne (by simp [cursorTimeKey])

theorem bucketKey_ne_marker (q : Str) (i : Int) : bucketKey q i ≠ q :=
  ne_of_len_ne (by
    have := len_intChars_pos i
    simp [bucketKey])

theorem msgKey_ne_marker (q c : Str) (now : Int) (uid : Str) :
    msgKey q c now uid ≠ q :=
  ne_of_len_ne (by
    have := len_intChars_pos now
    simp [msgKey])

theorem cursorMsgKey_ne_lastmsgKey (q c : Str) :
    cursorMsgKey q c ≠ lastmsgKey q := by
  intro h
  have hl := congrArg List.length h
  simp [cursorMsgKey, lastmsgKey] at hl

theorem cursorTimeKey_ne_lastmsgKey (q c : Str) :
    cursorTimeKey q c ≠ lastmsgKey q := by
  intro h
  have hl := congrArg List.length h
  simp [cursorTimeKey, lastmsgKey] at hl

theorem cursorMsgKey_ne_bucketKey (q c : Str) (i : Int) :
    cursorMsgKey q c ≠ bucketKey q i := by
  intro h
  rw [cursorMsgKey, bucketKey, List.append_assoc, List.append_assoc] at h
  have h2 := app_inj_left h
  simp at h2

theorem cursorTimeKey_ne_bucketKey (q c : Str) (i : Int) :
    cursorTimeKey q c ≠ bucketKey q i := by
  intro h
  rw [cursorTimeKey, bucketKey, List.append_assoc, List.append_assoc] at h
  have h2 := app_inj_left h
  simp at h2

theorem cursorTimeKey_ne_cursorMsgKey (q c c2 : Str) :
    cursorTimeKey q c ≠ cursorMsgKey q c2 := by
  intro h
  rw [cursorTimeKey, cursorMsgKey, List.append_assoc, List.append_assoc] at h
  have h2 := app_inj_left h
  simp at h2

theorem msgKey_ne_lastmsgKey (q c : Str) (now : Int) (uid : Str) :
    msgKey q c now uid ≠ lastmsgKey q := by
  intro h
  rw [msgKey, lastmsgKey] at h
  simp only [List.append_assoc] at h
  have h2 := app_inj_left h
  have h3 := congrArg (List.count '_') h2
  simp [List.count_append, List.count_cons,
    List.count_eq_zero.2 (intChars_no_uscore now)] at h3

theorem msgKey_ne_bucketKey (q c : Str) (now : Int) (uid : Str) (i : Int) :
    msgKey q c now uid ≠ bucketKey q i := by
  intro h
  rw [msgKey, bucketKey] at h
  simp only [List.append_assoc] at h
  have h2 := app_inj_left h
  have h3 := congrArg (List.count '_') h2
  simp [List.count_append, List.count_cons,
    List.count_eq_zero.2 (intChars_no_uscore now),
    List.count_eq_zero.2 (intChars_no_uscore i)] at h3
  omega

/-! ### Lemmas about `pySplit` and token lists -/

theorem pySplit_ne_nil (sep : Char) (s : Str) : pySplit sep s ≠ [] := by
  cases s with
  | nil => simp [pySplit]
  | cons c cs =>
    rcases h : pySplit sep cs with _ | ⟨t, ts⟩
    · simp [pySplit, h]
    · simp only [pySplit, h]
      split <;> simp

theorem pySplit_nosep {sep : Char} {k : Str} (h : sep ∉ k) : pySplit sep k = [k] := by
  induction k with
  | nil => rfl
  | cons c cs ih =>
    have hc : c ≠ sep := by
      intro e
      exact h (by simp [e])
    have hcs : sep ∉ cs := fun m => h (List.mem_cons_of_mem c m)
    simp [pySplit, ih hcs, hc]

theorem pySplit_append (sep : Char) (a b : Str) :
    pySplit sep (a ++ b) =
      initToks (pySplit sep a) ++
        (lastTok (pySplit sep a) ++ headTok (pySplit sep b)) ::
          tailToks (pySplit sep b) := by
  induction a with
  | nil =>
    rcases hb : pySplit sep b with _ | ⟨u, us⟩
    · exact absurd hb (pySplit_ne_nil sep b)
    · simp [pySplit, hb, initToks, lastTok, headTok, tailToks]
  | cons c cs ih =>
    rcases hcs : pySplit sep cs with _ | ⟨t, ts⟩
    · exact absurd hcs (pySplit_ne_nil sep cs)
    · rcases hb : pySplit sep b with _ | ⟨u, us⟩
      · exact absurd hb (pySplit_ne_nil sep b)
      · rw [hcs, hb] at ih
        rcases ts with _ | ⟨v, vs⟩ <;> by_cases hc : c = sep <;>
          simp [List.cons_append, pySplit, hcs, hb, ih, hc, initToks, lastTok,
            headTok, tailToks]

theorem pySplit_term (sep : Char) {k : Str} (h : sep ∉ k) :
    pySplit sep (k ++ [sep]) = [k, []] := by
  rw [pySplit_append, pySplit_nosep h]
  simp [pySplit, initToks, lastTok, headTok, tailToks]

theorem pySplit_bucket_append (s k : Str) (h : ',' ∉ k) :
    pySplit ',' (s ++ (k ++ [','])) =
      initToks (pySplit ',' s) ++ (lastTok (pySplit ',' s) ++ k) :: [[]] := by
  rw [pySplit_append, pySplit_term ',' h]
  simp [headTok, tailToks]

theorem mem_initToks {x : Str} : ∀ {l : List Str}, x ∈ initToks l → x ∈ l := by
  intro l
  induction l with
  | nil =>
    intro h
    simp [initToks] at h
  | cons t ts ih =>
    rcases ts with _ | ⟨u, us⟩
    · intro h
      simp [initToks] at h
    · intro h
      simp only [initToks] at h
      rcases List.mem_cons.1 h with h1 | h1
      · exact h1 ▸ List.mem_cons_self t _
      · exact List.mem_cons_of_mem t (ih h1)

theorem lastTok_mem : ∀ {l : List Str}, l ≠ [] → lastTok l ∈ l := by
  intro l
  induction l with
  | nil => intro h; exact absurd rfl h
  | cons t ts ih =>
    rcases ts with _ | ⟨u, us⟩
    · intro h2
      simp [lastTok]
    · intro h2
      have hm := ih (by simp)
      simp only [lastTok]
      exact List.mem_cons_of_mem t hm

theorem mem_of_mem_dropLast {x : Str} {l : List Str} (h : x ∈ l.dropLast) :
    x ∈ l :=
  List.dropLast_subset l h

theorem count_initToks_zero {k : Str} {l : List Str} (h : k ∉ l) :
    List.count k (initToks l) = 0 :=
  List.count_eq_zero.2 (fun m => h (mem_initToks m))

/-! ### Invariant preservation machinery -/

theorem ptrOk_none (q : Str) : ptrOk q .none := Or.inl rfl

theorem bucketOk_none (q : Str) : bucketOk q .none := Or.inl rfl

theorem markerOk_none : markerOk .none := Or.inl rfl

theorem bucketKey_ne_lastmsgKey (q : Str) (i : Int) :
    bucketKey q i ≠ lastmsgKey q := by
  intro h
  rw [bucketKey, lastmsgKey, List.append_assoc] at h
  have h2 := app_inj_left h
  simp at h2

theorem qinv_upd {q : Str} {st : CState} {k : Str} {v : PyVal} (h : QInv q st)
    (h1 : k = lastmsgKey q → ptrOk q v)
    (h2 : ∀ i : Int, k = bucketKey q i → bucketOk q v)
    (h3 : k = q → markerOk v) : QInv q (upd st k v) := by
  refine ⟨?_, ?_, ?_⟩
  · by_cases e : lastmsgKey q = k
    · rw [show upd st k v (lastmsgKey q) = v by simp [upd, e]]
      exact h1 e.symm
    · rw [upd_ne st k v e]
      exact h.1
  · intro i
    by_cases e : bucketKey q i = k
    · rw [show upd st k v (bucketKey q i) = v by simp [upd, e]]
      exact h2 i e.symm
    · rw [upd_ne st k v e]
      exact h.2.1 i
  · by_cases e : q = k
    · rw [show upd st k v q = v by simp [upd, e]]
      exact h3 e.symm
    · rw [upd_ne st k v e]
      exact h.2.2

theorem qinv_mcDelete {q : Str} {st : CState} {k : Str} (h : QInv q st) :
    QInv q (mcDelete st k).2 := by
  unfold mcDelete
  split
  · exact h
  · exact qinv_upd h (fun _ => ptrOk_none q) (fun _ _ => bucketOk_none q)
      (fun _ => markerOk_none)

theorem marker_mcDelete {q : Str} {st : CState} {k : Str} (hk : k ≠ q) :
    (mcDelete st k).2 q = st q := by
  unfold mcDelete
  split
  · rfl
  · exact upd_ne _ _ _ (Ne.symm hk)

/-- A delivered `keyID` that cannot be the bare queue name. -/
def safeKey (q : Str) (keyID : PyVal) : Prop :=
  ∀ k, keyID = .pstr k → k ≠ q

theorem qinv_pyMcDelete {q : Str} {st : CState} {keyID : PyVal} (h : QInv q st) :
    QInv q (pyMcDelete st keyID).2 := by
  rcases keyID with _ | k | n
  · exact h
  · exact qinv_mcDelete h
  · exact h

theorem marker_pyMcDelete {q : Str} {st : CState} {keyID : PyVal}
    (hs : safeKey q keyID) : (pyMcDelete st keyID).2 q = st q := by
  rcases keyID with _ | k | n
  · rfl
  · exact marker_mcDelete (hs k rfl)
  · rfl

theorem qinv_setLastClient {q : Str} {st : CState} {c : Str} {keyID : PyVal}
    {now : Int} (h : QInv q st) :
    QInv q (MemQueue._set_last_client st q c keyID now) := by
  unfold MemQueue._set_last_client mcSet
  refine qinv_upd (qinv_upd h ?_ ?_ ?_) ?_ ?_ ?_
  · intro e
    exact absurd e (cursorMsgKey_ne_lastmsgKey q c)
  · intro i e
    exact absurd e (cursorMsgKey_ne_bucketKey q c i)
  · intro e
    exact absurd e (cursorMsgKey_ne_marker q c)
  · intro e
    exact absurd e (cursorTimeKey_ne_lastmsgKey q c)
  · intro i e
    exact absurd e (cursorTimeKey_ne_bucketKey q c i)
  · intro e
    exact absurd e (cursorTimeKey_ne_marker q c)

theorem marker_setLastClient (st : CState) (q c : Str) (keyID : PyVal)
    (now : Int) : MemQueue._set_last_client st q c keyID now q = st q := by
  unfold MemQueue._set_last_client mcSet
  rw [upd_ne _ _ _ (Ne.symm (cursorTimeKey_ne_marker q c)),
    upd_ne _ _ _ (Ne.symm (cursorMsgKey_ne_marker q c))]

theorem qinv_get {mq : MemQueue} {q : Str} {st : CState} {keyID : PyVal}
    {c : Str} {now : Int} (h : QInv q st) :
    QInv q (MemQueue.get mq st q keyID c now).2 := by
  unfold MemQueue.get
  apply qinv_setLastClient
  split
  · exact qinv_pyMcDelete h
  · exact h

theorem marker_get {mq : MemQueue} {q : Str} {st : CState} {keyID : PyVal}
    {c : Str} {now : Int} (hs : safeKey q keyID) :
    (MemQueue.get mq st q keyID c now).2 q = st q := by
  unfold MemQueue.get
  show MemQueue._set_last_client
      (if mq.autodelete = true then (MemQueue.delete st keyID).2 else st) q c
      keyID now q = st q
  rw [marker_setLastClient]
  split
  · exact marker_pyMcDelete hs
  · rfl

theorem keynow_eq (q : Str) (ts : Int) :
    (MemQueue._get_timecache_keys q 1 ts).getLastD [] = bucketKey q ts := by
  have h2 : List.range ((1 : Int) + 1).toNat = [0, 1] := by decide
  unfold MemQueue._get_timecache_keys
  rw [h2]
  have h3 : ts - 1 + (1 : Nat) = ts := by omega
  simp [List.getLastD, h3]

theorem updateCacheView_eq_none {st : CState} {q keyID : Str} {now ts : Int}
    (hb : st (bucketKey q ts) = .none) :
    MemQueue._update_cache_view st q keyID now ts =
      mcSet (upd st (bucketKey q ts) (.pstr (keyID ++ [',']))) q (.num now) := by
  unfold MemQueue._update_cache_view
  rw [keynow_eq]
  simp [mcAppend, mcAdd, hb]

theorem updateCacheView_eq_pstr {st : CState} {q keyID : Str} {now ts : Int}
    {s : Str} (hb : st (bucketKey q ts) = .pstr s) :
    MemQueue._update_cache_view st q keyID now ts =
      mcSet (upd st (bucketKey q ts) (.pstr (s ++ (keyID ++ [','])))) q
        (.num now) := by
  unfold MemQueue._update_cache_view
  rw [keynow_eq]
  simp [mcAppend, hb]

theorem updateCacheView_marker (st : CState) (q keyID : Str) (now ts : Int) :
    MemQueue._update_cache_view st q keyID now ts q = .num now := by
  unfold MemQueue._update_cache_view mcSet
  exact upd_same _ _ _

theorem msgKey_len (q c : Str) (now : Int) (uid : Str) :
    q.length < (msgKey q c now uid).length := by
  have := len_intChars_pos now
  simp [msgKey]

theorem msgKey_no_comma {q c : Str} {now : Int} {uid : Str} (hq : ',' ∉ q)
    (hc : ',' ∉ c) (hu : ',' ∉ uid) : ',' ∉ msgKey q c now uid := by
  simp [msgKey, List.mem_append, hq, hc, hu, intChars_no_comma now]

theorem qinv_updateCacheView {q : Str} {st : CState} {keyID : Str}
    {now ts : Int} (h : QInv q st) (hcomma : ',' ∉ keyID)
    (hlen : q.length < keyID.length) (hnow : 0 < now) :
    QInv q (MemQueue._update_cache_view st q keyID now ts) := by
  have hmark : ∀ e : (bucketKey q ts) = q, False :=
    fun e => bucketKey_ne_marker q ts e
  have houter : ∀ st2 : CState, QInv q st2 → QInv q (mcSet st2 q (.num now)) := by
    intro st2 h2
    refine qinv_upd h2 ?_ ?_ ?_
    · intro e
      exact absurd e.symm (lastmsgKey_ne_marker q)
    · intro i e
      exact absurd e.symm (bucketKey_ne_marker q i)
    · intro e
      exact Or.inr ⟨now, rfl, hnow⟩
  rcases h.2.1 ts with hb | ⟨s, hb, htoks⟩
  · rw [updateCacheView_eq_none hb]
    apply houter
    refine qinv_upd h ?_ ?_ ?_
    · intro e
      exact absurd e (bucketKey_ne_lastmsgKey q ts)
    · intro i e
      refine Or.inr ⟨keyID ++ [','], rfl, ?_⟩
      rw [pySplit_term ',' hcomma]
      intro t ht
      rcases List.mem_cons.1 ht with h1 | h1
      · exact Or.inr (h1 ▸ hlen)
      · simp only [List.mem_singleton] at h1
        exact Or.inl h1
    · intro e
      exact absurd e (bucketKey_ne_marker q ts)
  · rw [updateCacheView_eq_pstr hb]
    apply houter
    refine qinv_upd h ?_ ?_ ?_
    · intro e
      exact absurd e (bucketKey_ne_lastmsgKey q ts)
    · intro i e
      refine Or.inr ⟨s ++ (keyID ++ [',']), rfl, ?_⟩
      rw [pySplit_bucket_append s keyID hcomma]
      intro t ht
      rcases List.mem_append.1 ht with h1 | h1
      · exact htoks t (mem_initToks h1)
      · rcases List.mem_cons.1 h1 with h2 | h2
        · refine Or.inr ?_
          rw [h2]
          simp
          omega
        · simp only [List.mem_singleton] at h2
          exact Or.inl h2
    · intro e
      exact absurd e (bucketKey_ne_marker q ts)

theorem put_marker (mq : MemQueue) (st : CState) (q : Str) (data : PyVal)
    (c : Str) (now : Int) (uid : Str) (ts : Int) :
    (MemQueue.put mq st q data c now uid ts).2 q = .num now := by
  unfold MemQueue.put
  exact updateCacheView_marker _ _ _ _ _

theorem qinv_put {mq : MemQueue} {q : Str} {st : CState} {data : PyVal}
    {c : Str} {now : Int} {uid : Str} {ts : Int} (h : QInv q st)
    (hc : ',' ∉ c) (hu : ',' ∉ uid) (hq : ',' ∉ q) (hnow : 0 < now) :
    QInv q (MemQueue.put mq st q data c now uid ts).2 := by
  unfold MemQueue.put MemQueue._set_last_msg mcSet
  apply qinv_updateCacheView _ (msgKey_no_comma hq hc hu) (msgKey_len q c now uid) hnow
  refine qinv_upd (qinv_upd h ?_ ?_ ?_) ?_ ?_ ?_
  · intro e
    exact absurd e (msgKey_ne_lastmsgKey q c now uid)
  · intro i e
    exact absurd e (msgKey_ne_bucketKey q c now uid i)
  · intro e
    exact absurd e (msgKey_ne_marker q c now uid)
  · intro e
    exact Or.inr ⟨msgKey q c now uid, rfl, msgKey_len q c now uid⟩
  · intro i e
    exact absurd e.symm (bucketKey_ne_lastmsgKey q i)
  · intro e
    exact absurd e (lastmsgKey_ne_marker q)

theorem bucketTokens_mem {st : CState} {k : Str} {ts1 : List Str}
    (h : MemQueue.bucketTokens st k = .ok ts1) {x : Str} (hx : x ∈ ts1) :
    ∃ s, st k = .pstr s ∧ x ∈ pySplit ',' s := by
  rcases hv : st k with _ | s | n <;>
    simp only [MemQueue.bucketTokens, mcGet, hv] at h
  · simp only [Except.ok.injEq] at h
    subst h
    simp at hx
  · split at h
    · simp only [Except.ok.injEq] at h
      subst h
      simp at hx
    · simp only [Except.ok.injEq] at h
      subst h
      exact ⟨s, rfl, hx⟩
  · split at h
    · simp only [Except.ok.injEq] at h
      subst h
      simp at hx
    · exact absurd h (by simp)

theorem collectMsgs_mem {st : CState} :
    ∀ {ks ms : List Str}, MemQueue.collectMsgs st ks = .ok ms →
      ∀ {x : Str}, x ∈ ms →
      ∃ k, k ∈ ks ∧ ∃ s, st k = .pstr s ∧ x ∈ pySplit ',' s := by
  intro ks
  induction ks with
  | nil =>
    intro ms h x hx
    simp only [MemQueue.collectMsgs, Except.ok.injEq] at h
    subst h
    simp at hx
  | cons k rest ih =>
    intro ms h x hx
    rcases hbt : MemQueue.bucketTokens st k with e | ts1
    · simp only [MemQueue.collectMsgs, hbt] at h
      exact absurd h (by simp)
    · simp only [MemQueue.collectMsgs, hbt] at h
      rcases hcr : MemQueue.collectMsgs st rest with e2 | rest2
      · rw [hcr] at h
        exact absurd h (by simp)
      · rw [hcr] at h
        simp only [Except.ok.injEq] at h
        subst h
        rcases List.mem_append.1 hx with h1 | h1
        · rcases bucketTokens_mem hbt h1 with ⟨s, hs, hxs⟩
          exact ⟨k, List.mem_cons_self k rest, s, hs, hxs⟩
        · rcases ih hcr h1 with ⟨k2, hk2, s, hs, hxs⟩
          exact ⟨k2, List.mem_cons_of_mem k hk2, s, hs, hxs⟩

theorem listmsgs_mem {st : CState} {q : Str} {tf ts : Int} {msgs : List Str}
    (h : MemQueue.listmsgs st q tf ts = .ok msgs) {x : Str} (hx : x ∈ msgs) :
    ∃ i : Int, ∃ s, st (bucketKey q i) = .pstr s ∧ x ∈ pySplit ',' s := by
  unfold MemQueue.listmsgs at h
  split at h
  · exact absurd h (by simp)
  · rename_i ms hc
    split at h
    · exact absurd h (by simp)
    · simp only [Except.ok.injEq] at h
      subst h
      rcases collectMsgs_mem hc (mem_of_mem_dropLast hx) with ⟨k, hk, s, hs, hxs⟩
      simp only [MemQueue._get_timecache_keys, List.mem_map] at hk
      rcases hk with ⟨j, hj, rfl⟩
      exact ⟨ts - tf + j, s, hs, hxs⟩

theorem listmsgs_tokOk {q : Str} {st : CState} {tf ts : Int} {msgs : List Str}
    (h : QInv q st) (hl : MemQueue.listmsgs st q tf ts = .ok msgs) :
    ∀ x ∈ msgs, tokOk q x := by
  intro x hx
  rcases listmsgs_mem hl hx with ⟨i, s, hs, hxs⟩
  rcases h.2.1 i with hb | ⟨s2, hb, htoks⟩
  · rw [hs] at hb
    exact absurd hb (by simp)
  · rw [hs] at hb
    injection hb with hss
    subst hss
    exact htoks x hxs

theorem safeKey_pstr {q k : Str} (h : k ≠ q) : safeKey q (.pstr k) := by
  intro k2 e
  injection e with e2
  exact e2 ▸ h

theorem safeKey_of_ptrOk {q : Str} {v : PyVal} (h : ptrOk q v) : safeKey q v := by
  intro k e
  rcases h with h | ⟨s, hs, hlen⟩
  · rw [h] at e
    exact absurd e (by simp)
  · rw [hs] at e
    injection e with e2
    subst e2
    exact ne_of_len_ne (by omega)

theorem safeKey_of_tokOk {q t : Str} (hq : q ≠ []) (h : tokOk q t) :
    safeKey q (.pstr t) := by
  intro k e
  injection e with e2
  subst e2
  rcases h with h | h
  · subst h
    exact fun e3 => hq e3.symm
  · exact ne_of_len_ne (by omega)

theorem qinv_last {mq : MemQueue} {q : Str} {st : CState} {c : Str} {now : Int}
    (h : QInv q st) : QInv q (MemQueue.last mq st q c now).2 :=
  qinv_get h

theorem marker_last {mq : MemQueue} {q : Str} {st : CState} {c : Str}
    {now : Int} (h : QInv q st) : (MemQueue.last mq st q c now).2 q = st q := by
  unfold MemQueue.last MemQueue._get_last_msg mcGet
  exact marker_get (safeKey_of_ptrOk h.1)

theorem nextmsg_ok_state {mq : MemQueue} {q : Str} {st : CState} {c : Str}
    {now ts : Int} {r : PyVal × CState} (h : QInv q st) (hq : q ≠ [])
    (hnm : MemQueue.nextmsg mq st q c now ts = .ok r) :
    QInv q r.2 ∧ r.2 q = st q := by
  simp only [MemQueue.nextmsg] at hnm
  split at hnm
  · simp only [Except.ok.injEq] at hnm
    subst hnm
    exact ⟨h, rfl⟩
  · split at hnm
    · simp only [Except.ok.injEq] at hnm
      subst hnm
      exact ⟨qinv_last h, marker_last h⟩
    · split at hnm
      · simp at hnm
      · split at hnm
        · simp only [Except.ok.injEq] at hnm
          subst hnm
          rename_i msgs hmsgs hlt
          have htok := listmsgs_tokOk h hmsgs _ (List.get_mem msgs _ hlt)
          exact ⟨qinv_get h, marker_get (safeKey_of_tokOk hq htok)⟩
        · simp at hnm

theorem isPut_shape {op : Op} (h : op.isPut = true) :
    ∃ d c now uid ts, op = .oput d c now uid ts := by
  cases op <;> first
    | exact ⟨_, _, _, _, _, rfl⟩
    | simp [Op.isPut] at h

theorem step_qinv (mq : MemQueue) {q : Str} {st : CState} {op : Op}
    (h : QInv q st) (hq : q ≠ []) (hqc : ',' ∉ q) (hwf : wfOp q op) :
    QInv q (applyOp mq q st op) ∧
      (op.isPut = false → applyOp mq q st op q = st q) ∧
      ∀ d c now uid ts, op = .oput d c now uid ts →
        applyOp mq q st op q = .num now := by
  cases op with
  | oput d c now uid ts =>
    rcases hwf with ⟨hc, hu, hnow⟩
    refine ⟨qinv_put h hc hu hqc hnow, ?_, ?_⟩
    · intro habs
      simp [Op.isPut] at habs
    · intro d2 c2 now2 uid2 ts2 he
      cases he
      exact put_marker mq st q d c now uid ts
  | oget k c now =>
    exact ⟨qinv_get h, fun _ => marker_get (safeKey_pstr hwf),
      fun _ _ _ _ _ he => Op.noConfusion he⟩
  | olast c now =>
    exact ⟨qinv_last h, fun _ => marker_last h,
      fun _ _ _ _ _ he => Op.noConfusion he⟩
  | onext c now ts =>
    rcases hnm : MemQueue.nextmsg mq st q c now ts with e | r
    · have ha : applyOp mq q st (.onext c now ts) = st := by
        simp [applyOp, hnm]
      exact ⟨ha.symm ▸ h, fun _ => by rw [ha],
        fun _ _ _ _ _ he => Op.noConfusion he⟩
    · have ha : applyOp mq q st (.onext c now ts) = r.2 := by
        simp [applyOp, hnm]
      obtain ⟨h1, h2⟩ := nextmsg_ok_state h hq hnm
      exact ⟨ha.symm ▸ h1, fun _ => by rw [ha]; exact h2,
        fun _ _ _ _ _ he => Op.noConfusion he⟩
  | olist tframe ts =>
    exact ⟨h, fun _ => rfl, fun _ _ _ _ _ he => Op.noConfusion he⟩
  | odel k =>
    exact ⟨qinv_mcDelete h, fun _ => marker_mcDelete hwf,
      fun _ _ _ _ _ he => Op.noConfusion he⟩
  | opurge tframe c =>
    exact ⟨h, fun _ => rfl, fun _ _ _ _ _ he => Op.noConfusion he⟩
  | ocheck =>
    exact ⟨h, fun _ => rfl, fun _ _ _ _ _ he => Op.noConfusion he⟩

theorem run_marker (mq : MemQueue) {q : Str} (hq : q ≠ []) (hqc : ',' ∉ q) :
    ∀ (ops : List Op) (st : CState), QInv q st → (∀ op ∈ ops, wfOp q op) →
      QInv q (runOps mq q st ops) ∧
        (runOps mq q st ops q = .none ↔
          (st q = .none ∧ ∀ op ∈ ops, op.isPut = false)) := by
  intro ops
  induction ops with
  | nil =>
    intro st h hwf
    exact ⟨h, by simp [runOps]⟩
  | cons op rest ih =>
    intro st h hwf
    have hstep := step_qinv mq h hq hqc (hwf op (List.mem_cons_self op rest))
    have hrest := ih (applyOp mq q st op) hstep.1
      (fun o ho => hwf o (List.mem_cons_of_mem op ho))
    refine ⟨hrest.1, ?_⟩
    have hrw : runOps mq q st (op :: rest) =
        runOps mq q (applyOp mq q st op) rest := rfl
    rw [hrw, hrest.2]
    by_cases hput : op.isPut = true
    · rcases isPut_shape hput with ⟨d, c, now, uid, ts, rfl⟩
      rw [hstep.2.2 d c now uid ts rfl]
      simp [Op.isPut, List.forall_mem_cons]
    · rw [hstep.2.1 (by simpa using hput)]
      simp only [List.forall_mem_cons]
      constructor
      · rintro ⟨h1, h2⟩
        exact ⟨h1, by simpa using hput, h2⟩
      · rintro ⟨h1, h2, h3⟩
        exact ⟨h1, h3⟩

/-! ### Claim theorems -/

/-- C1: the claim — after N in-window puts, `listmsgs` returns exactly the N
keys in write order with no empty tokens, each bucket's trailing empty token
being stripped per bucket, and an empty sequence when N = 0 — fails on the
code: `listmsgs` pops a single element off the *merged* list, so with no
bucket data (`N = 0`) the pop raises `IndexError` instead of returning an
empty sequence, and with one write per minute in two successive minutes the
first bucket's trailing empty token survives inside the output
(`[k1, "", k2]` instead of `[k1, k2]`). -/
theorem listmsgs_global_trim_bug :
    MemQueue.listmsgs emptyC exQ 10 1000 = .error .indexError ∧
      MemQueue.listmsgs exTwoBuckets exQ 10 1000 = .ok [exK1, [], exK2] :=
  ⟨rfl, rfl⟩

/-- C2: the claim — an out-of-range next-message index makes `nextmsg`
return null — fails on the code: the `try` around `msgs.index` catches only
`ValueError`, so when the client's cursor is the last entry of the windowed
list while the LastMessage pointer names a key whose bucket is gone,
`msgs.pop(index)` raises an uncaught `IndexError`. -/
theorem nextmsg_pop_out_of_range_bug :
    MemQueue.nextmsg exMQ exStuck exQ exC 5 1000 = .error .indexError :=
  rfl

/-- C3: the claim — `purge_queue` deletes every message key found in the
window — fails on the code: the method calls `self._get_timecache_key`
(without the trailing `s`), an attribute that does not exist, so every call
raises `AttributeError` before deleting anything; and the key list it tries
to build consists of bucket keys, not message keys. -/
theorem purge_queue_always_raises (st : CState) (q : Str) (tframe : Int)
    (c : Str) : MemQueue.purge_queue st q tframe c = .error .attributeError :=
  rfl

/-- C4: absence surfaces as null and never as a raised failure: `get` of an
absent message key returns `None`; `last` on a queue whose LastMessage
pointer is absent returns `None`; `nextmsg` for a fully caught-up client
returns `.ok` with `None`.  The first two are total functions of the model
(no error outcome exists on those paths), and the third produces no error
value. -/
theorem absence_is_null :
    (∀ (mq : MemQueue) (st : CState) (q k c : Str) (now : Int),
      st k = .none → (MemQueue.get mq st q (.pstr k) c now).1 = .none) ∧
    (∀ (mq : MemQueue) (st : CState) (q c : Str) (now : Int),
      st (lastmsgKey q) = .none → (MemQueue.last mq st q c now).1 = .none) ∧
    (∀ (mq : MemQueue) (st : CState) (q c : Str) (now ts : Int),
      mcGet st (cursorMsgKey q c) = mcGet st (lastmsgKey q) →
        ∃ st2, MemQueue.nextmsg mq st q c now ts = .ok (.none, st2)) := by
  refine ⟨?_, ?_, ?_⟩
  · intro mq st q k c now h
    simp [MemQueue.get, pyMcGet, h]
  · intro mq st q c now h
    simp [MemQueue.last, MemQueue.get, MemQueue._get_last_msg, mcGet,
      pyMcGet, h]
  · intro mq st q c now ts h
    refine ⟨st, ?_⟩
    simp only [mcGet] at h
    simp [MemQueue.nextmsg, MemQueue._get_last_client, MemQueue._get_last_msg,
      mcGet, h]

/-- Witness for C4 at concrete inputs (the empty cache). -/
theorem absence_is_null_witness :
    (MemQueue.get exMQ emptyC exQ (.pstr exK1) exC 5).1 = .none ∧
      (MemQueue.last exMQ emptyC exQ exC 5).1 = .none ∧
      ∃ st2, MemQueue.nextmsg exMQ emptyC exQ exC 5 1000 = .ok (.none, st2) :=
  ⟨absence_is_null.1 exMQ emptyC exQ exK1 exC 5 rfl,
   absence_is_null.2.1 exMQ emptyC exQ exC 5 rfl,
   absence_is_null.2.2 exMQ emptyC exQ exC 5 1000 rfl⟩

/-- C5: the constructor ignores both endpoint arguments: every constructed
object carries the hard-coded endpoint list `['127.0.0.1:11211']`, and two
objects built with different primary/backup endpoint lists (same remaining
configuration) are equal — hence indistinguishable to every subsequent
operation. -/
theorem init_ignores_servers (p b p2 b2 : List Str) (a : Bool) (l : Int) :
    MemQueue.init p b a l = MemQueue.init p2 b2 a l ∧
      (MemQueue.init p b a l).servers = [chars "127.0.0.1:11211"] :=
  ⟨rfl, rfl⟩

/-- C6: when the client's cursor value equals the queue's LastMessage
pointer value, `nextmsg` returns `None` and leaves the cache state exactly
as it was, at every wall-clock instant — so repeated calls return `None`
every time until some other operation (a new `put`) changes one of the two
keys. -/
theorem nextmsg_caught_up_idempotent (mq : MemQueue) (st : CState) (q c : Str)
    (h : mcGet st (cursorMsgKey q c) = mcGet st (lastmsgKey q)) :
    ∀ now ts : Int, MemQueue.nextmsg mq st q c now ts = .ok (.none, st) := by
  intro now ts
  simp only [mcGet] at h
  simp [MemQueue.nextmsg, MemQueue._get_last_client, MemQueue._get_last_msg,
    mcGet, h]

/-- Witness for C6: on the empty cache both keys read `None`, and `nextmsg`
returns `None` leaving the state unchanged. -/
theorem nextmsg_caught_up_idempotent_witness :
    MemQueue.nextmsg exMQ emptyC exQ exC 5 1000 = .ok (.none, emptyC) :=
  nextmsg_caught_up_idempotent exMQ emptyC exQ exC rfl 5 1000

/-- C7: lag-based fast-forward: when the client is not caught up, its
cursor timestamp is set (truthy) and `now - lastClientTime > clientlag`,
`nextmsg` returns exactly `last(queue, clientID)` — the delivery of the
message named by the LastMessage pointer — and the state it produces has
the client's cursor advanced to that pointer value. -/
theorem nextmsg_fast_forward (mq : MemQueue) (st : CState) (q c : Str)
    (now ts t : Int)
    (hne : mcGet st (cursorMsgKey q c) ≠ mcGet st (lastmsgKey q))
    (ht : mcGet st (cursorTimeKey q c) = .num t) (ht0 : t ≠ 0)
    (hlag : t < now - mq.clientlag) :
    MemQueue.nextmsg mq st q c now ts = .ok (MemQueue.last mq st q c now) ∧
      (MemQueue.last mq st q c now).2 (cursorMsgKey q c) =
        mcGet st (lastmsgKey q) := by
  constructor
  · simp only [mcGet] at hne ht
    simp [MemQueue.nextmsg, MemQueue._get_last_client, MemQueue._get_last_msg,
      mcGet, hne, ht, pyTruthy, pyLtNum, ht0, hlag]
  · show MemQueue._set_last_client _ q c (MemQueue._get_last_msg st q) now
      (cursorMsgKey q c) = mcGet st (lastmsgKey q)
    unfold MemQueue._set_last_client mcSet
    rw [upd_ne _ _ _ (Ne.symm (cursorTimeKey_ne_cursorMsgKey q c c)), upd_same]
    rfl

/-- Witness for C7: a client whose cursor (`exK1`, delivered at time 1)
lags behind the pointer (`exK2`) by more than the 3-second lag at time 200. -/
theorem nextmsg_fast_forward_witness :
    MemQueue.nextmsg exMQ exLag exQ exC 200 1000 =
        .ok (MemQueue.last exMQ exLag exQ exC 200) ∧
      (MemQueue.last exMQ exLag exQ exC 200).2 (cursorMsgKey exQ exC) =
        mcGet exLag (lastmsgKey exQ) :=
  nextmsg_fast_forward exMQ exLag exQ exC 200 1000 1 (by decide) rfl
    (by decide) (by decide)

/-- C8: `_update_cache_view` first attempts the atomic append of
`"{key},"`, falls back to atomic create, retries the append once more, and
unconditionally sets the existence marker to the current timestamp.  From
any state whose current-minute bucket is absent or a delimiter-terminated
string not already containing the (unique, comma-free) key, the key ends up
in the current bucket exactly once and the marker holds `now`. -/
theorem register_message_exactly_once (st : CState) (q keyID : Str)
    (now ts : Int) (hk : keyID ≠ []) (hcomma : ',' ∉ keyID)
    (hb : st (bucketKey q ts) = .none ∨
      ∃ s, st (bucketKey q ts) = .pstr s ∧ lastTok (pySplit ',' s) = [] ∧
        keyID ∉ pySplit ',' s) :
    (∃ s2, MemQueue._update_cache_view st q keyID now ts (bucketKey q ts) =
        .pstr s2 ∧ List.count keyID (pySplit ',' s2) = 1) ∧
      MemQueue._update_cache_view st q keyID now ts q = .num now := by
  refine ⟨?_, updateCacheView_marker st q keyID now ts⟩
  rcases hb with hb | ⟨s, hb, hlast, hmem⟩
  · rw [updateCacheView_eq_none hb]
    refine ⟨keyID ++ [','], ?_, ?_⟩
    · simp only [mcSet]
      rw [upd_ne _ _ _ (bucketKey_ne_marker q ts), upd_same]
    · rw [pySplit_term ',' hcomma]
      simp [List.count_cons, hk, Ne.symm hk]
  · rw [updateCacheView_eq_pstr hb]
    refine ⟨s ++ (keyID ++ [',']), ?_, ?_⟩
    · simp only [mcSet]
      rw [upd_ne _ _ _ (bucketKey_ne_marker q ts), upd_same]
    · rw [pySplit_bucket_append s keyID hcomma, hlast]
      simp [List.count_append, List.count_cons, count_initToks_zero hmem,
        hk, Ne.symm hk]

/-- Witness for C8: registering `exK1` in minute 1000 of the empty cache. -/
theorem register_message_exactly_once_witness :
    (∃ s2, MemQueue._update_cache_view emptyC exQ exK1 7 1000
        (bucketKey exQ 1000) = .pstr s2 ∧
        List.count exK1 (pySplit ',' s2) = 1) ∧
      MemQueue._update_cache_view emptyC exQ exK1 7 1000 exQ = .num 7 :=
  register_message_exactly_once emptyC exQ exK1 7 1000 (by decide) (by decide)
    (Or.inl rfl)

/-- C9: the claim — `bucketKeys` spans the real wall-clock minutes
`currentMinute - w .. currentMinute`, every key naming a real minute even
across hour boundaries — fails on the code: the key indices come from
integer arithmetic on the decimal `YYYYMMDDHHMM` encoding.  At
2026-01-01 14:00 with a 10-minute window the list has the claimed length
(11) but contains the key for the non-existent "minute" `...011390` and
omits the key for 13:59 (`...011359`), a real minute inside the window. -/
theorem bucket_keys_hour_boundary_bug :
    (MemQueue._get_timecache_keys exQ 10 202601011400).length = 11 ∧
      bucketKey exQ 202601011390 ∈
        MemQueue._get_timecache_keys exQ 10 202601011400 ∧
      bucketKey exQ 202601011359 ∉
        MemQueue._get_timecache_keys exQ 10 202601011400 :=
  ⟨by decide, by decide, by decide⟩

/-- C10: starting from the empty cache, for any history of API calls under
documented usage (comma-free client and message identifiers, positive write
timestamps, `get`/`delete` applied to keys other than the bare queue name),
`check_queue` returns 0 exactly when the history contains no `put` — the
existence marker is present iff at least one message was ever written, an
invariant every operation preserves. -/
theorem check_queue_zero_iff_no_put (mq : MemQueue) (q : Str) (ops : List Op)
    (hq : q ≠ []) (hqc : ',' ∉ q) (hwf : ∀ op ∈ ops, wfOp q op) :
    MemQueue.check_queue (runOps mq q emptyC ops) q = .num 0 ↔
      ∀ op ∈ ops, op.isPut = false := by
  have hinv0 : QInv q emptyC :=
    ⟨ptrOk_none q, fun _ => bucketOk_none q, markerOk_none⟩
  have hrun := run_marker mq hq hqc ops emptyC hinv0 hwf
  have hiff : runOps mq q emptyC ops q = .none ↔
      ∀ op ∈ ops, op.isPut = false := by
    rw [hrun.2]
    simp [emptyC]
  have hmark := hrun.1.2.2
  unfold MemQueue.check_queue
  rcases hfv : runOps mq q emptyC ops q with _ | s | n
  · have hnp : ∀ op ∈ ops, op.isPut = false := hiff.1 hfv
    simp [hfv]
    exact hnp
  · rw [hfv] at hmark
    rcases hmark with h1 | ⟨n2, h2, hpos⟩
    · exact absurd h1 (by simp)
    · exact absurd h2 (by simp)
  · rw [hfv] at hmark
    rcases hmark with h1 | ⟨n2, h2, hpos⟩
    · exact absurd h1 (by simp)
    · injection h2 with e2
      subst e2
      simp only [hfv]
      constructor
      · intro he
        injection he with e3
        omega
      · intro hnp
        have h4 := hiff.2 hnp
        rw [hfv] at h4
        exact absurd h4 (by simp)

/-- Witness for C10: with the single-`put` history the marker is set, so
`check_queue` is non-zero and both sides of the equivalence are false. -/
theorem check_queue_zero_iff_no_put_witness :
    MemQueue.check_queue (runOps exMQ exQ emptyC [exPutOp]) exQ = .num 0 ↔
      ∀ op ∈ [exPutOp], op.isPut = false := by
  apply check_queue_zero_iff_no_put
  · decide
  · decide
  · intro op hop
    simp only [List.mem_singleton] at hop
    subst hop
    exact ⟨by decide, by decide, by decide⟩
